import Mathlib

/-!
Verification of the site composition engine of the upper.io documentation
repository.  The repository ships content, templates and deployment scripts;
the composition engine itself (settings cascade, content tree, navigation
resolver, asset resolver, page renderer) is delegated to an external
static-site engine, so only its template call sites appear in the sources.
The engine's data model and operations are therefore modelled from the
specification; the template fragments (breadcrumb and side-menu emission)
are embedded from `src/sites/default/templates/index.tpl`.
-/

/-- A breadcrumb / side-menu entry: a `(text, link)` pair, as ranged over by
the template (`.text`, `.link`). -/
structure Entry where
  text : String
  link : String
deriving DecidableEq, Repr

/-- A level-index entry: a `(url, text)` pair, as ranged over by the template
in `GetTitlesFromLevel` loops (`.url`, `.text`). -/
structure Title where
  url : String
  text : String
deriving DecidableEq, Repr

mutual
/-- Modelled from the spec (§3): a Page is a single content document with a
`url` (unique, normalized slash path) and a `title`; a Section is a Page that
also owns an ordered sequence of child Pages.  The `level` of a page and the
parent back-reference are positional (index-based relations, §9), not stored. -/
inductive Page : Type where
  | node (url : String) (title : String) (children : Pages)
deriving DecidableEq, Repr
/-- An ordered sequence of sibling pages (insertion order = traversal order). -/
inductive Pages : Type where
  | nil
  | cons (p : Page) (ps : Pages)
deriving DecidableEq, Repr
end

def Pages.toList : Pages → List Page
  | .nil => []
  | .cons p ps => p :: ps.toList

def Pages.ofList : List Page → Pages
  | [] => .nil
  | p :: ps => .cons p (Pages.ofList ps)

def Page.url : Page → String
  | .node u _ _ => u

def Page.title : Page → String
  | .node _ t _ => t

def Page.children : Page → Pages
  | .node _ _ cs => cs

/-- The entry a navigation list shows for a page: text is the page title,
link is the page url. -/
def entryOf (p : Page) : Entry :=
  ⟨p.title, p.url⟩

/-- The entry a level index shows for a page. -/
def titleOf (p : Page) : Title :=
  ⟨p.url, p.title⟩

/-- Modelled from the spec (§3): the Site root entity.  `home` is the homepage
(level 0); the ordered forest `pages` of the data model is `home.children`.
`homeURL` is the configured home URL of §4.5 (absent means unconfigured). -/
structure Site where
  home : Page
  homeURL : Option String

/-- The ordered forest of top sections of the Site. -/
def Site.pages (s : Site) : Pages :=
  s.home.children

/-- A page of the Site is addressed by its path of child indices from the
root; `pageAt` descends the tree along such a path. -/
def pageAt : Page → List Nat → Option Page
  | p, [] => some p
  | p, i :: is =>
    match (p.children.toList)[i]? with
    | some c => pageAt c is
    | none => none

/-- Whether a child-index path addresses a page of the tree. -/
def validPath (root : Page) (path : List Nat) : Bool :=
  (pageAt root path).isSome

/-- Modelled from the spec (§3): `level` is the depth in the tree, 0 for the
homepage; with index-based parent relations it is the length of the page's
child-index path. -/
def pageLevel (path : List Nat) : Nat :=
  path.length

/-- Modelled from the spec (§4.3): walk parent references from the page up to
the Site root, collecting one `(text, link)` entry per page met (current page
first, root last). -/
def walkUp : Page → List Nat → List Entry
  | p, [] => [entryOf p]
  | p, i :: is =>
    (match (p.children.toList)[i]? with
     | some c => walkUp c is
     | none => []) ++ [entryOf p]

/-- Modelled from the spec (§4.3): `breadcrumb(page)` walks parent references
from the page to the Site root and reverses the order root-first; the page
itself is the last (self-linked) entry. -/
def BreadCrumb (root : Page) (path : List Nat) : List Entry :=
  (walkUp root path).reverse

/-- On a valid path the walk up visits one page per path prefix. -/
theorem walkUp_length (path : List Nat) : ∀ (root : Page) (p : Page),
    pageAt root path = some p → (walkUp root path).length = path.length + 1 := by
  induction path with
  | nil => intro root p _; rfl
  | cons i is ih =>
    intro root p h
    unfold pageAt at h
    unfold walkUp
    cases hc : (root.children.toList)[i]? with
    | none => rw [hc] at h; exact absurd h (by simp)
    | some c =>
      rw [hc] at h
      simp [hc, ih c p h]

/-- The first entry collected by the walk up is the entry of the page itself. -/
theorem walkUp_head (path : List Nat) : ∀ (root : Page) (p : Page),
    pageAt root path = some p → (walkUp root path).head? = some (entryOf p) := by
  induction path with
  | nil => intro root p h; cases h; rfl
  | cons i is ih =>
    intro root p h
    unfold pageAt at h
    unfold walkUp
    cases hc : (root.children.toList)[i]? with
    | none => rw [hc] at h; exact absurd h (by simp)
    | some c =>
      rw [hc] at h
      have hne : walkUp c is ≠ [] := by
        intro hnil
        have := walkUp_length is c p h
        rw [hnil] at this
        exact absurd this (by simp)
      rw [List.head?_append_of_ne_nil _ hne]
      exact ih c p h

/-- The breadcrumb is the root-first sequence of the entries of the pages at
the successive prefixes of the path. -/
theorem breadCrumb_eq_prefix_entries (path : List Nat) : ∀ (root : Page) (p : Page),
    pageAt root path = some p →
    BreadCrumb root path =
      (List.range (path.length + 1)).filterMap
        (fun k => (pageAt root (path.take k)).map entryOf) := by
  induction path with
  | nil =>
    intro root p _
    simp [BreadCrumb, walkUp, List.range_succ, pageAt]
  | cons i is ih =>
    intro root p h
    unfold pageAt at h
    cases hc : (root.children.toList)[i]? with
    | none => rw [hc] at h; exact absurd h (by simp)
    | some c =>
      rw [hc] at h
      have hstep : BreadCrumb root (i :: is) = entryOf root :: BreadCrumb c is := by
        simp [BreadCrumb, walkUp, hc]
      rw [hstep, ih c p h]
      conv_rhs => rw [show (i :: is).length + 1 = (is.length + 1) + 1 from by simp,
        List.range_succ_eq_map, List.filterMap_cons, List.filterMap_map]
      simp only [List.take_zero, pageAt, Option.map_some']
      refine congrArg (entryOf root :: ·) (List.filterMap_congr ?_)
      intro k _
      simp [Function.comp, List.take_succ_cons, pageAt, hc]

/-- C1: for every Page `p` of the Site, `breadcrumb(p)` is the root-first
sequence of `(text, link)` entries of the ancestors of `p` (obtained by
walking parent references up from `p` and reversing); it has exactly
`level(p) + 1` entries and the link of its last entry equals `url(p)`. -/
theorem C1_breadcrumb (root : Page) (path : List Nat) (p : Page)
    (h : pageAt root path = some p) :
    BreadCrumb root path =
      (List.range (pageLevel path + 1)).filterMap
        (fun k => (pageAt root (path.take k)).map entryOf) ∧
    (BreadCrumb root path).length = pageLevel path + 1 ∧
    ((BreadCrumb root path).getLast?).map Entry.link = some (p.url) := by
  refine ⟨breadCrumb_eq_prefix_entries path root p h, ?_, ?_⟩
  · simp [BreadCrumb, pageLevel, walkUp_length path root p h]
  · rw [BreadCrumb, List.getLast?_reverse, walkUp_head path root p h]
    rfl

/-- The scenario content tree of the spec (§8): home `/`, section `/db` with
children `/db/getting-started` and `/db/examples`, and `/about`. -/
def scenarioSite : Site :=
  { home := .node "/" "Home" (.cons
      (.node "/db" "db" (.cons
        (.node "/db/getting-started" "getting-started" .nil) (.cons
        (.node "/db/examples" "examples" .nil) .nil))) (.cons
      (.node "/about" "about" .nil) .nil))
    homeURL := none }

/-- Witness for C1 at the scenario page `/db/examples` (path `[0, 1]`). -/
theorem C1_breadcrumb_witness :
    pageAt scenarioSite.home [0, 1] =
      some (.node "/db/examples" "examples" .nil) ∧
    BreadCrumb scenarioSite.home [0, 1] =
      [⟨"Home", "/"⟩, ⟨"db", "/db"⟩, ⟨"examples", "/db/examples"⟩] ∧
    (BreadCrumb scenarioSite.home [0, 1]).length = pageLevel [0, 1] + 1 ∧
    ((BreadCrumb scenarioSite.home [0, 1]).getLast?).map Entry.link =
      some "/db/examples" := by
  have h := C1_breadcrumb scenarioSite.home [0, 1]
    (.node "/db/examples" "examples" .nil) (by decide)
  exact ⟨by decide, by decide, h.2.1, h.2.2⟩

/-- Modelled from the spec (§4.3): `titlesAtLevel(n)` / `GetTitlesFromLevel n`
descends `n` levels into the pages forest and lists the titles found there,
preserving tree order.  Depth 0 is the top of the pages forest (the top
sections). -/
def GetTitlesFromLevel : Nat → Pages → List Title
  | 0, ps => ps.toList.map titleOf
  | n + 1, ps => ps.toList.flatMap (fun p => GetTitlesFromLevel n p.children)

mutual
/-- Pre-order depth-first flattening of a page's subtree, each node tagged
with its depth (the root of the subtree is at depth `d`). -/
def preorderD (d : Nat) : Page → List (Nat × Title)
  | .node u t cs => (d, ⟨u, t⟩) :: preorderFD (d + 1) cs
/-- Pre-order depth-first flattening of a forest, roots at depth `d`. -/
def preorderFD (d : Nat) : Pages → List (Nat × Title)
  | .nil => []
  | .cons p ps => preorderD d p ++ preorderFD d ps
end

theorem mem_preorderD_le (d : Nat) (p : Page) : ∀ e ∈ preorderD d p, d ≤ e.1 := by
  induction p using Page.rec
    (motive_2 := fun ps => ∀ d, ∀ e ∈ preorderFD d ps, d ≤ e.1) generalizing d with
  | node u t cs ih =>
    intro e he
    rcases List.mem_cons.mp he with rfl | h2
    · exact le_refl d
    · exact Nat.le_of_succ_le (ih (d + 1) e h2)
  | nil => rename_i d e he; simp [preorderFD] at he
  | cons p ps hp hps =>
    rename_i d e he
    rcases List.mem_append.mp he with h1 | h2
    · exact hp d e h1
    · exact hps d e h2

theorem mem_preorderFD_le (d : Nat) (ps : Pages) : ∀ e ∈ preorderFD d ps, d ≤ e.1 := by
  induction ps using Pages.rec (motive_1 := fun _ => True) with
  | node _ _ _ _ => trivial
  | nil => intro e he; simp [preorderFD] at he
  | cons p ps _ ih =>
    intro e he
    rcases List.mem_append.mp he with h1 | h2
    · exact mem_preorderD_le d p e h1
    · exact ih e h2

theorem filter_preorderD_self (p : Page) (d : Nat) :
    ((preorderD d p).filter (fun e => e.1 == d)).map (·.2) = [titleOf p] := by
  cases p with
  | node u t cs =>
    rw [preorderD, List.filter_cons]
    have hdrop : (preorderFD (d + 1) cs).filter (fun e => e.1 == d) = [] := by
      rw [List.filter_eq_nil_iff]
      intro e he
      have := mem_preorderFD_le (d + 1) cs e he
      simp only [beq_iff_eq]
      omega
    simp [hdrop, titleOf, Page.url, Page.title]

theorem filter_preorderFD_self (ps : Pages) (d : Nat) :
    ((preorderFD d ps).filter (fun e => e.1 == d)).map (·.2) = ps.toList.map titleOf := by
  induction ps using Pages.rec (motive_1 := fun _ => True) with
  | node _ _ _ _ => trivial
  | nil => rfl
  | cons p ps _ ih =>
    rw [preorderFD, List.filter_append, List.map_append, ih, filter_preorderD_self,
      Pages.toList, List.map_cons]
    rfl

theorem getTitles_eq_filter_preorder (n : Nat) : ∀ (d : Nat) (ps : Pages),
    GetTitlesFromLevel n ps =
      ((preorderFD d ps).filter (fun e => e.1 == d + n)).map (·.2) := by
  induction n with
  | zero =>
    intro d ps
    simpa using (filter_preorderFD_self ps d).symm
  | succ n ih =>
    intro d ps
    induction ps using Pages.rec (motive_1 := fun _ => True) with
    | node _ _ _ _ => trivial
    | nil => rfl
    | cons p ps _ ihps =>
      have hpage : ((preorderD d p).filter (fun e => e.1 == d + (n + 1))).map (·.2) =
          GetTitlesFromLevel n p.children := by
        cases p with
        | node u t cs =>
          rw [preorderD, List.filter_cons]
          have hhd : ((d, (⟨u, t⟩ : Title)).1 == d + (n + 1)) = false := by
            simp only [beq_eq_false_iff_ne]
            omega
          rw [hhd]
          have := (ih (d + 1) cs).symm
          rw [show d + 1 + n = d + (n + 1) from by omega] at this
          simpa [Page.children] using this
      rw [preorderFD, List.filter_append, List.map_append, ← ihps, hpage]
      rw [GetTitlesFromLevel, Pages.toList, List.flatMap_cons]
      rfl

/-- C2: `titlesAtLevel(n)` equals the pre-order depth-first flattening of the
Site's pages forest filtered to the nodes at depth exactly `n`, in traversal
order; and on the scenario content tree, `titlesAtLevel(0)` is
`[{"/db","db"}, {"/about","about"}]` in that order. -/
theorem C2_titles_at_level :
    (∀ (n : Nat) (s : Site),
      GetTitlesFromLevel n s.pages =
        ((preorderFD 0 s.pages).filter (fun e => e.1 == n)).map (·.2)) ∧
    GetTitlesFromLevel 0 scenarioSite.pages = [⟨"/db", "db"⟩, ⟨"/about", "about"⟩] := by
  constructor
  · intro n s
    simpa using getTitles_eq_filter_preorder n 0 s.pages
  · decide

/-- The effective home URL of a Site: the configured one, else `/`. -/
def Site.effectiveHomeURL (s : Site) : String :=
  s.homeURL.getD "/"

/-- Modelled from the spec (§4.5): `isHome` is true exactly for the Page whose
`level == 0` and whose `url` equals the Site's configured home URL. -/
def IsHome (s : Site) (path : List Nat) : Bool :=
  (pageLevel path == 0) && ((pageAt s.home path).map Page.url == some s.effectiveHomeURL)

/-- C5: for every Page of the Site, `isHome` is true exactly when its level is
0 and its url equals the configured home URL; when no home URL is configured
the comparison falls back to the default `/`. -/
theorem C5_is_home (s : Site) (path : List Nat) (p : Page)
    (h : pageAt s.home path = some p) :
    (IsHome s path = true ↔ (pageLevel path = 0 ∧ p.url = s.homeURL.getD "/")) ∧
    (s.homeURL = none → (IsHome s path = true ↔ (path = [] ∧ p.url = "/"))) := by
  constructor
  · simp [IsHome, h, Site.effectiveHomeURL]
  · intro hnone
    simp [IsHome, h, Site.effectiveHomeURL, hnone, pageLevel, List.length_eq_zero]

/-- Witness for C5: on the scenario Site (no configured home URL) the homepage
`/` is recognized as home, and the page `/db` at level 1 is not. -/
theorem C5_is_home_witness :
    IsHome scenarioSite [] = true ∧ IsHome scenarioSite [0] = false := by
  have h := C5_is_home scenarioSite [] scenarioSite.home rfl
  exact ⟨(h.2 rfl).mpr ⟨rfl, by decide⟩, by decide⟩

/-- A Section is a Page that owns children. -/
def Page.isSection (p : Page) : Bool :=
  !p.children.toList.isEmpty

/-- Modelled from the spec (§4.3): `sideMenu(page)` — if the page is a
Section, its direct children in tree order; if it is a leaf, its parent
Section's children (the leaf's siblings), excluding nothing. -/
def SideMenu (root : Page) (path : List Nat) : List Entry :=
  match pageAt root path with
  | none => []
  | some p =>
    if p.isSection then p.children.toList.map entryOf
    else
      match pageAt root path.dropLast with
      | some par => par.children.toList.map entryOf
      | none => []

theorem pageAt_concat (q : List Nat) : ∀ (root : Page) (i : Nat) (p : Page),
    pageAt root (q ++ [i]) = some p →
    ∃ par, pageAt root q = some par ∧ (par.children.toList)[i]? = some p := by
  induction q with
  | nil =>
    intro root i p h
    refine ⟨root, rfl, ?_⟩
    rw [List.nil_append] at h
    unfold pageAt at h
    cases hc : (root.children.toList)[i]? with
    | none => rw [hc] at h; cases h
    | some c =>
      rw [hc] at h
      simp only [pageAt] at h
      exact h
  | cons j q ih =>
    intro root i p h
    rw [List.cons_append] at h
    unfold pageAt at h
    cases hc : (root.children.toList)[j]? with
    | none => rw [hc] at h; cases h
    | some c =>
      rw [hc] at h
      obtain ⟨par, hpar, hget⟩ := ih c i p h
      exact ⟨par, by rw [pageAt, hc]; exact hpar, hget⟩

/-- C6: for every Page of the Site, if it is a Section its side menu is
exactly its direct children in tree order; if it is a leaf (with a parent),
its side menu is exactly its parent Section's children in tree order, and its
own entry remains listed. -/
theorem C6_side_menu (root : Page) (path : List Nat) (p : Page)
    (h : pageAt root path = some p) :
    (p.isSection = true → SideMenu root path = p.children.toList.map entryOf) ∧
    (p.isSection = false → ∀ q i, path = q ++ [i] →
      ∃ par, pageAt root q = some par ∧
        SideMenu root path = par.children.toList.map entryOf ∧
        entryOf p ∈ SideMenu root path) := by
  constructor
  · intro hsec
    simp [SideMenu, h, hsec]
  · intro hleaf q i hpath
    subst hpath
    obtain ⟨par, hpar, hget⟩ := pageAt_concat q root i p h
    have hdl : (q ++ [i]).dropLast = q := List.dropLast_concat
    have hmenu : SideMenu root (q ++ [i]) = par.children.toList.map entryOf := by
      rw [SideMenu, h]
      simp only [hleaf, Bool.false_eq_true, if_false, hdl, hpar]
    refine ⟨par, hpar, hmenu, ?_⟩
    rw [hmenu]
    exact List.mem_map_of_mem entryOf (List.getElem?_mem hget)

/-- Witness for C6 at the scenario leaf `/db/getting-started` (path `[0, 0]`):
its side menu lists its parent's children, its own entry included. -/
theorem C6_side_menu_witness :
    SideMenu scenarioSite.home [0, 0] =
      [⟨"getting-started", "/db/getting-started"⟩, ⟨"examples", "/db/examples"⟩] ∧
    (⟨"getting-started", "/db/getting-started"⟩ : Entry) ∈
      SideMenu scenarioSite.home [0, 0] := by
  have h := C6_side_menu scenarioSite.home [0, 0]
    (.node "/db/getting-started" "getting-started" .nil) (by decide)
  obtain ⟨par, _, hmenu, hmem⟩ := h.2 (by decide) [0] 0 rfl
  exact ⟨by decide, by
    have : entryOf (.node "/db/getting-started" "getting-started" .nil) =
        (⟨"getting-started", "/db/getting-started"⟩ : Entry) := by decide
    rw [← this]
    exact hmem⟩

/-- Modelled from the spec (§3, §9): a settings value is a scalar, a list, or
a nested mapping. -/
inductive SettingValue : Type where
  | scalar (s : String)
  | vlist (xs : List String)
  | mapping (kvs : List (String × String))
deriving DecidableEq, Repr

/-- Modelled from the spec (§9): the typed accessor returns a tagged variant
`Absent | Scalar | List | Mapping`; `absent` is the defined sentinel for a
missing key, never an error. -/
inductive SettingResult : Type where
  | absent
  | scalar (s : String)
  | vlist (xs : List String)
  | mapping (kvs : List (String × String))
deriving DecidableEq, Repr

def SettingValue.toResult : SettingValue → SettingResult
  | .scalar s => .scalar s
  | .vlist xs => .vlist xs
  | .mapping kvs => .mapping kvs

/-- A settings file: an ordered sequence of dotted-key definitions. -/
def SettingsFile : Type :=
  List (String × SettingValue)

/-- Modelled from the spec (§4.1): within a file, last-definition-wins. -/
def lookupFile (f : SettingsFile) (k : String) : Option SettingValue :=
  ((f.filter (fun kv => kv.1 == k)).getLast?).map (·.2)

/-- Modelled from the spec (§3, §4.1): the two-level cascade — the
site-specific (instance) file overlaid on the defaults file. -/
structure SettingsStore where
  instanceFile : SettingsFile
  defaultsFile : SettingsFile

/-- Modelled from the spec (§4.1): `get(key)` resolves through the cascade:
the instance file wins; a key absent from both files yields `absent`.
No merging of any kind happens across the two files. -/
def SettingsStore.setting (st : SettingsStore) (k : String) : SettingResult :=
  match lookupFile st.instanceFile k with
  | some v => v.toResult
  | none =>
    match lookupFile st.defaultsFile k with
    | some v => v.toResult
    | none => .absent

/-- C3: settings lookup resolves through the two-level cascade with the
instance file winning over the defaults file; list values are never merged
across files (the instance list wins entirely); and with instance
`page/brand = "X"` over default `page/brand = "Y"`, `get("page/brand")`
returns `"X"`. -/
theorem C3_settings_cascade :
    (∀ (st : SettingsStore) (k : String) (v : SettingValue),
      lookupFile st.instanceFile k = some v → st.setting k = v.toResult) ∧
    (∀ (st : SettingsStore) (k : String) (xs ys : List String),
      lookupFile st.instanceFile k = some (.vlist xs) →
      lookupFile st.defaultsFile k = some (.vlist ys) →
      st.setting k = .vlist xs) ∧
    (SettingsStore.mk [("page/brand", .scalar "X")] [("page/brand", .scalar "Y")]).setting
      "page/brand" = .scalar "X" := by
  refine ⟨?_, ?_, by decide⟩
  · intro st k v h
    rw [SettingsStore.setting, h]
  · intro st k xs ys h _
    rw [SettingsStore.setting, h]
    rfl

/-- Witness for C3: the cascade rule applied at a concrete store where both
files define the same list key; the instance list wins entirely. -/
theorem C3_settings_cascade_witness :
    lookupFile [("page/body/menu", SettingValue.vlist ["a", "b"])] "page/body/menu" =
      some (.vlist ["a", "b"]) ∧
    (SettingsStore.mk [("page/body/menu", .vlist ["a", "b"])]
        [("page/body/menu", .vlist ["c"])]).setting "page/body/menu" =
      .vlist ["a", "b"] := by
  refine ⟨by decide, ?_⟩
  exact C3_settings_cascade.2.1
    (SettingsStore.mk [("page/body/menu", .vlist ["a", "b"])]
      [("page/body/menu", .vlist ["c"])])
    "page/body/menu" ["a", "b"] ["c"] (by decide) (by decide)

/-- C8: a key absent from both settings files resolves to the defined
`absent` sentinel — lookup is total and never an error. -/
theorem C8_absent_key (st : SettingsStore) (k : String)
    (h1 : lookupFile st.instanceFile k = none)
    (h2 : lookupFile st.defaultsFile k = none) :
    st.setting k = .absent := by
  rw [SettingsStore.setting, h1, h2]

/-- Witness for C8 at a concrete store and key defined in neither file. -/
theorem C8_absent_key_witness :
    (SettingsStore.mk [("page/brand", SettingValue.scalar "X")] []).setting
      "page/body/menu" = .absent := by
  exact C8_absent_key (SettingsStore.mk [("page/brand", .scalar "X")] [])
    "page/body/menu" (by decide) (by decide)

/-- An already-resolved URL recognized by its scheme: `http://`, `https://`,
or protocol-relative `//`. -/
def isSchemeURL (s : List Char) : Bool :=
  ("http://".data).isPrefixOf s || ("https://".data).isPrefixOf s ||
    ("//".data).isPrefixOf s

/-- Root a path at `/`: a path that already starts with `/` is unchanged. -/
def rootSlash : List Char → List Char
  | [] => ['/']
  | c :: cs => if c = '/' then c :: cs else '/' :: c :: cs

/-- Modelled from the spec (§4.4): `resolve(logicalPath)` — an
already-resolved URL (recognized by scheme, or by already carrying the asset
base as a prefix) is returned unchanged; otherwise, if an asset base is
configured the result is the base joined with the path, else the path rooted
at `/`.  Purely string composition. -/
def resolveChars : Option (List Char) → List Char → List Char
  | none, s => if isSchemeURL s then s else rootSlash s
  | some b, s =>
    if isSchemeURL s then s
    else if b.isPrefixOf s then s else b ++ rootSlash s

/-- The template's `asset` helper over Lean strings. -/
def asset (base : Option String) (s : String) : String :=
  ⟨resolveChars (base.map String.data) s.data⟩

theorem rootSlash_of_rootSlash (s : List Char) : rootSlash (rootSlash s) = rootSlash s := by
  cases s with
  | nil => rfl
  | cons c cs =>
    rw [rootSlash]
    by_cases hc : c = '/'
    · simp [hc, rootSlash]
    · simp [hc, rootSlash]

theorem resolveChars_scheme (base : Option (List Char)) (s : List Char)
    (h : isSchemeURL s = true) : resolveChars base s = s := by
  cases base with
  | none => rw [resolveChars, if_pos h]
  | some b => rw [resolveChars, if_pos h]

theorem resolveChars_base_self (b s : List Char) (h : b.isPrefixOf s = true) :
    resolveChars (some b) s = s := by
  rw [resolveChars]
  by_cases hs : isSchemeURL s
  · rw [if_pos hs]
  · rw [if_neg hs, if_pos h]

theorem resolveChars_idem (base : Option (List Char)) (s : List Char) :
    resolveChars base (resolveChars base s) = resolveChars base s := by
  by_cases hs : isSchemeURL s
  · rw [resolveChars_scheme base s hs, resolveChars_scheme base s hs]
  · cases base with
    | none =>
      have h1 : resolveChars none s = rootSlash s := by
        rw [resolveChars, if_neg hs]
      rw [h1, resolveChars]
      by_cases hr : isSchemeURL (rootSlash s)
      · rw [if_pos hr]
      · rw [if_neg hr]
        exact rootSlash_of_rootSlash s
    | some b =>
      by_cases hp : b.isPrefixOf s
      · have h1 : resolveChars (some b) s = s := resolveChars_base_self b s hp
        rw [h1]
        exact h1
      · have h1 : resolveChars (some b) s = b ++ rootSlash s := by
          rw [resolveChars, if_neg hs, if_neg hp]
        rw [h1]
        refine resolveChars_base_self b (b ++ rootSlash s) ?_
        rw [List.isPrefixOf_iff_prefix]
        exact List.prefix_append b (rootSlash s)

/-- C4: the asset resolver is idempotent — `resolve(resolve(x)) = resolve(x)`
for every asset base and every logical path `x` — and an already-resolved URL
(recognized by its scheme, or by carrying the asset base as a prefix) is
returned unchanged. -/
theorem C4_asset_idempotent :
    (∀ (base : Option String) (x : String), asset base (asset base x) = asset base x) ∧
    (∀ (base : Option String) (x : String), isSchemeURL x.data = true →
      asset base x = x) ∧
    (∀ (b x : String), (String.data b).isPrefixOf x.data = true →
      asset (some b) x = x) := by
  refine ⟨?_, ?_, ?_⟩
  · intro base x
    exact congrArg String.mk (resolveChars_idem (base.map String.data) x.data)
  · intro base x h
    exact congrArg String.mk (resolveChars_scheme (base.map String.data) x.data h)
  · intro b x h
    exact congrArg String.mk (resolveChars_base_self b.data x.data h)

/-- Witness for C4: idempotence and the unchanged cases evaluated at concrete
inputs (asset base `/static`, path `css/style.css`, and the absolute URL
`https://upper.io/db`). -/
theorem C4_asset_idempotent_witness :
    asset (some "/static") (asset (some "/static") "css/style.css") =
      asset (some "/static") "css/style.css" ∧
    asset none "https://upper.io/db" = "https://upper.io/db" ∧
    asset (some "/static") "/static/css/style.css" = "/static/css/style.css" := by
  refine ⟨C4_asset_idempotent.1 (some "/static") "css/style.css", ?_, ?_⟩
  · exact C4_asset_idempotent.2.1 none "https://upper.io/db" (by decide)
  · exact C4_asset_idempotent.2.2 "/static" "/static/css/style.css" (by decide)

mutual
/-- Modelled from the spec (§4.2): a node of the raw content hierarchy fed to
`build` — a directory or document with a file name and its entries. -/
inductive RawNode : Type where
  | node (name : String) (children : RawForest)
deriving DecidableEq, Repr
/-- The ordered entries of a raw directory (traversal order). -/
inductive RawForest : Type where
  | nil
  | cons (r : RawNode) (rs : RawForest)
deriving DecidableEq, Repr
end

def RawNode.name : RawNode → String
  | .node n _ => n

def RawForest.names : RawForest → List String
  | .nil => []
  | .cons r rs => r.name :: rs.names

/-- The normalized slash path of a list of name segments: `/` for the empty
list, `/a/b/c` for `[a, b, c]`. -/
def urlOfSegs (segs : List String) : String :=
  ⟨'/' :: List.intercalate ['/'] (segs.map String.data)⟩

/-- A well-formed file name: nonempty and slash-free. -/
def goodName (s : String) : Bool :=
  decide (s.data ≠ [] ∧ '/' ∉ s.data)

mutual
/-- A well-formed raw hierarchy: every name is well formed and the names of
the entries of each directory are pairwise distinct. -/
def goodTree : RawNode → Bool
  | .node name cs => goodName name && decide cs.names.Nodup && goodForest cs
def goodForest : RawForest → Bool
  | .nil => true
  | .cons r rs => goodTree r && goodForest rs
end

mutual
/-- Modelled from the spec (§4.2): `build` walks the content hierarchy; each
node becomes a Page (a Section when it has entries) whose url is the
normalized slash path of its name segments.  Title derivation from
front-matter and explicit ordering keys are orthogonal to the invariants
settled here: titles are the names and sibling order is traversal order. -/
def buildNode (pre : List String) : RawNode → Page
  | .node name cs =>
    .node (urlOfSegs (pre ++ [name])) name (buildForest (pre ++ [name]) cs)
def buildForest (pre : List String) : RawForest → Pages
  | .nil => .nil
  | .cons r rs => .cons (buildNode pre r) (buildForest pre rs)
end

/-- Modelled from the spec (§4.2): `build(rootPath) -> Site` — the content
root becomes the homepage at url `/`, its entries the pages forest. -/
def build (raw : RawNode) : Site :=
  match raw with
  | .node name cs => { home := .node (urlOfSegs []) name (buildForest [] cs)
                       homeURL := none }

mutual
/-- All urls of the pages of a subtree, in pre-order. -/
def allUrls : Page → List String
  | .node u _ cs => u :: allUrlsF cs
def allUrlsF : Pages → List String
  | .nil => []
  | .cons p ps => allUrls p ++ allUrlsF ps
end

mutual
/-- The name-segment paths of all nodes of a raw subtree below prefix `pre`,
in pre-order. -/
def segPaths (pre : List String) : RawNode → List (List String)
  | .node name cs => (pre ++ [name]) :: segPathsF (pre ++ [name]) cs
def segPathsF (pre : List String) : RawForest → List (List String)
  | .nil => []
  | .cons r rs => segPaths pre r ++ segPathsF pre rs
end

theorem allUrlsF_buildForest (rs : RawForest) : ∀ pre,
    allUrlsF (buildForest pre rs) = (segPathsF pre rs).map urlOfSegs := by
  induction rs using RawForest.rec
    (motive_1 := fun r => ∀ pre,
      allUrls (buildNode pre r) = (segPaths pre r).map urlOfSegs) with
  | node name cs ih =>
    rename_i pre
    rw [buildNode, allUrls, segPaths, List.map_cons, ih (pre ++ [name])]
  | nil => intro pre; rfl
  | cons r rs ihr ihrs =>
    intro pre
    rw [buildForest, allUrlsF, segPathsF, List.map_append, ihr pre, ihrs pre]

theorem mem_segPathsF_shape (rs : RawForest) : ∀ pre q, q ∈ segPathsF pre rs →
    ∃ n rest, n ∈ rs.names ∧ q = pre ++ n :: rest := by
  induction rs using RawForest.rec
    (motive_1 := fun r => ∀ pre q, q ∈ segPaths pre r →
      ∃ rest, q = pre ++ r.name :: rest) with
  | node name cs ih =>
    rename_i pre q hq
    rw [segPaths] at hq
    rcases List.mem_cons.mp hq with rfl | htail
    · exact ⟨[], by simp [RawNode.name]⟩
    · obtain ⟨n, rest, _, hq⟩ := ih (pre ++ [name]) q htail
      exact ⟨n :: rest, by simp [RawNode.name, hq]⟩
  | nil => intro pre q hq; simp [segPathsF] at hq
  | cons r rs ihr ihrs =>
    intro pre q hq
    rw [segPathsF] at hq
    rcases List.mem_append.mp hq with h1 | h2
    · obtain ⟨rest, hrest⟩ := ihr pre q h1
      exact ⟨r.name, rest, List.mem_cons_self _ _, hrest⟩
    · obtain ⟨n, rest, hn, hrest⟩ := ihrs pre q h2
      exact ⟨n, rest, List.mem_cons_of_mem _ hn, hrest⟩

theorem mem_segPaths_shape (r : RawNode) (pre q : List String)
    (hq : q ∈ segPaths pre r) : ∃ rest, q = pre ++ r.name :: rest := by
  cases r with
  | node name cs =>
    rw [segPaths] at hq
    rcases List.mem_cons.mp hq with rfl | htail
    · exact ⟨[], by simp [RawNode.name]⟩
    · obtain ⟨n, rest, _, hq⟩ := mem_segPathsF_shape cs (pre ++ [name]) q htail
      exact ⟨n :: rest, by simp [RawNode.name, hq]⟩

theorem mem_segPathsF_good (rs : RawForest) : ∀ pre, goodForest rs = true →
    (∀ x ∈ pre, goodName x = true) →
    ∀ q ∈ segPathsF pre rs, ∀ x ∈ q, goodName x = true := by
  induction rs using RawForest.rec
    (motive_1 := fun r => ∀ pre, goodTree r = true →
      (∀ x ∈ pre, goodName x = true) →
      ∀ q ∈ segPaths pre r, ∀ x ∈ q, goodName x = true) with
  | node name cs ih =>
    rename_i pre hg hpre q hq x hx
    simp only [goodTree, Bool.and_eq_true, decide_eq_true_eq] at hg
    obtain ⟨⟨hname, _⟩, hforest⟩ := hg
    have hpre' : ∀ x ∈ pre ++ [name], goodName x = true := by
      intro y hy
      rcases List.mem_append.mp hy with h1 | h2
      · exact hpre y h1
      · rw [List.mem_singleton.mp h2]; exact hname
    rw [segPaths] at hq
    rcases List.mem_cons.mp hq with rfl | htail
    · exact hpre' x hx
    · exact ih (pre ++ [name]) hforest hpre' q htail x hx
  | nil => intro pre _ _ q hq; simp [segPathsF] at hq
  | cons r rs ihr ihrs =>
    intro pre hg hpre q hq x hx
    rw [goodForest, Bool.and_eq_true] at hg
    rw [segPathsF] at hq
    rcases List.mem_append.mp hq with h1 | h2
    · exact ihr pre hg.1 hpre q h1 x hx
    · exact ihrs pre hg.2 hpre q h2 x hx

theorem segPathsF_nodup (rs : RawForest) : ∀ pre, goodForest rs = true →
    rs.names.Nodup → (segPathsF pre rs).Nodup := by
  induction rs using RawForest.rec
    (motive_1 := fun r => ∀ pre, goodTree r = true → (segPaths pre r).Nodup) with
  | node name cs ih =>
    rename_i pre hg
    simp only [goodTree, Bool.and_eq_true, decide_eq_true_eq] at hg
    obtain ⟨⟨_, hnodup⟩, hforest⟩ := hg
    rw [segPaths, List.nodup_cons]
    constructor
    · intro hmem
      obtain ⟨n, rest, _, habs⟩ := mem_segPathsF_shape cs (pre ++ [name]) _ hmem
      have := congrArg List.length habs
      simp at this
    · exact ih (pre ++ [name]) hforest hnodup
  | nil => intro pre _ _; simp [segPathsF]
  | cons r rs ihr ihrs =>
    intro pre hg hn
    rw [goodForest, Bool.and_eq_true] at hg
    rw [RawForest.names, List.nodup_cons] at hn
    rw [segPathsF]
    refine List.Nodup.append (ihr pre hg.1) (ihrs pre hg.2 hn.2) ?_
    intro q hq1 hq2
    obtain ⟨rest, hrest⟩ := mem_segPaths_shape r pre q hq1
    obtain ⟨n, rest', hmem, hrest'⟩ := mem_segPathsF_shape rs pre q hq2
    rw [hrest] at hrest'
    have := List.append_cancel_left hrest'
    rw [List.cons.injEq] at this
    exact hn.1 (this.1 ▸ hmem)

theorem string_data_injective : Function.Injective String.data := by
  intro s t h
  cases s
  cases t
  exact congrArg String.mk (by simpa using h)

theorem urlOfSegs_inj (a b : List String) (ha : ∀ x ∈ a, goodName x = true)
    (hb : ∀ x ∈ b, goodName x = true) (h : urlOfSegs a = urlOfSegs b) : a = b := by
  have hd := congrArg String.data h
  simp only [urlOfSegs] at hd
  have hi : List.intercalate ['/'] (a.map String.data) =
      List.intercalate ['/'] (b.map String.data) := by
    injection hd
  have hga : ∀ l ∈ a.map String.data, '/' ∉ l := by
    intro l hl
    obtain ⟨x, hx, rfl⟩ := List.mem_map.mp hl
    exact (of_decide_eq_true (ha x hx)).2
  have hgb : ∀ l ∈ b.map String.data, '/' ∉ l := by
    intro l hl
    obtain ⟨x, hx, rfl⟩ := List.mem_map.mp hl
    exact (of_decide_eq_true (hb x hx)).2
  cases a with
  | nil =>
    cases b with
    | nil => rfl
    | cons y b' =>
      exfalso
      simp only [List.map_nil] at hi
      have hsplit := congrArg (fun l => l.splitOn '/') hi
      simp only at hsplit
      rw [show List.intercalate ['/'] ([] : List (List Char)) = [] from rfl] at hsplit
      rw [List.splitOn_nil, List.splitOn_intercalate _ '/' hgb (by simp)] at hsplit
      rw [List.map_cons, List.cons.injEq] at hsplit
      exact (of_decide_eq_true (hb y (List.mem_cons_self y b'))).1 hsplit.1.symm
  | cons x a' =>
    cases b with
    | nil =>
      exfalso
      simp only [List.map_nil] at hi
      have hsplit := congrArg (fun l => l.splitOn '/') hi
      simp only at hsplit
      rw [show List.intercalate ['/'] ([] : List (List Char)) = [] from rfl] at hsplit
      rw [List.splitOn_nil, List.splitOn_intercalate _ '/' hga (by simp)] at hsplit
      rw [List.map_cons, List.cons.injEq] at hsplit
      exact (of_decide_eq_true (ha x (List.mem_cons_self x a'))).1 hsplit.1
    | cons y b' =>
      have hsplit := congrArg (fun l => l.splitOn '/') hi
      simp only at hsplit
      rw [List.splitOn_intercalate _ '/' hga (by simp),
        List.splitOn_intercalate _ '/' hgb (by simp)] at hsplit
      exact (List.map_injective_iff.mpr string_data_injective) hsplit

theorem pageAt_extend (path : List Nat) : ∀ (root p : Page),
    pageAt root path = some p → ∀ (i : Nat) (c : Page),
    (p.children.toList)[i]? = some c → pageAt root (path ++ [i]) = some c := by
  induction path with
  | nil =>
    intro root p h i c hc
    simp only [pageAt, Option.some.injEq] at h
    subst h
    simp [pageAt, hc]
  | cons j is ih =>
    intro root p h i c hc
    rw [List.cons_append]
    unfold pageAt at h ⊢
    cases hj : (root.children.toList)[j]? with
    | none => rw [hj] at h; cases h
    | some cj =>
      rw [hj] at h
      exact ih cj p h i c hc

/-- C7: the tree built by `build(rootPath)` satisfies the level invariant —
every direct child of a page sits exactly one level below it, level 0 being
the homepage — and, provided the raw hierarchy is well formed (nonempty
slash-free names, distinct within each directory), every page url is unique
across the Site. -/
theorem C7_build_invariants (raw : RawNode) (h : goodTree raw = true) :
    (∀ (path : List Nat) (p : Page), pageAt (build raw).home path = some p →
      ∀ (i : Nat) (c : Page), (p.children.toList)[i]? = some c →
        pageAt (build raw).home (path ++ [i]) = some c ∧
        pageLevel (path ++ [i]) = pageLevel path + 1) ∧
    (allUrls (build raw).home).Nodup := by
  constructor
  · intro path p hp i c hc
    exact ⟨pageAt_extend path _ p hp i c hc, by simp [pageLevel]⟩
  · cases raw with
    | node name cs =>
      simp only [goodTree, Bool.and_eq_true, decide_eq_true_eq] at h
      obtain ⟨⟨_, hnodup⟩, hforest⟩ := h
      show (allUrls (Page.node (urlOfSegs []) name (buildForest [] cs))).Nodup
      rw [allUrls, List.nodup_cons, allUrlsF_buildForest cs []]
      constructor
      · intro hmem
        obtain ⟨q, hq, hurl⟩ := List.mem_map.mp hmem
        obtain ⟨n, rest, _, rfl⟩ := mem_segPathsF_shape cs [] q hq
        have hgood : ∀ x ∈ ([] : List String) ++ n :: rest, goodName x = true :=
          mem_segPathsF_good cs [] hforest (by simp) _ hq
        have := urlOfSegs_inj _ [] hgood (by simp) hurl
        simp at this
      · refine List.Nodup.map_on ?_ (segPathsF_nodup cs [] hforest hnodup)
        intro q1 hq1 q2 hq2 heq
        exact urlOfSegs_inj q1 q2 (mem_segPathsF_good cs [] hforest (by simp) q1 hq1)
          (mem_segPathsF_good cs [] hforest (by simp) q2 hq2) heq

/-- The scenario content hierarchy as raw input for `build`. -/
def scenarioRaw : RawNode :=
  .node "content" (.cons
    (.node "db" (.cons (.node "getting-started" .nil) (.cons
      (.node "examples" .nil) .nil))) (.cons
    (.node "about" .nil) .nil))

/-- Witness for C7 on the scenario hierarchy: the built urls are pairwise
distinct and the first top section sits at level 1 under the homepage. -/
theorem C7_build_invariants_witness :
    goodTree scenarioRaw = true ∧
    allUrls (build scenarioRaw).home =
      ["/", "/db", "/db/getting-started", "/db/examples", "/about"] ∧
    (allUrls (build scenarioRaw).home).Nodup ∧
    pageAt (build scenarioRaw).home ([] ++ [0]) =
      some (.node "/db" "db" (.cons
        (.node "/db/getting-started" "getting-started" .nil) (.cons
        (.node "/db/examples" "examples" .nil) .nil))) ∧
    pageLevel ([] ++ [0]) = pageLevel [] + 1 := by
  have h := C7_build_invariants scenarioRaw (by decide)
  have h1 := h.1 [] (build scenarioRaw).home rfl 0
    (.node "/db" "db" (.cons
      (.node "/db/getting-started" "getting-started" .nil) (.cons
      (.node "/db/examples" "examples" .nil) .nil))) (by decide)
  exact ⟨by decide, by decide, h.2, h1.1, h1.2⟩

/-- Modelled from the spec (§4.2, §6): a raw content document — its path and
the raw front-matter text at its head. -/
structure RawDoc where
  path : String
  frontMatter : String
deriving DecidableEq, Repr

/-- Modelled from the spec (§7): the per-document, recoverable error of the
error taxonomy, tagged with the offending document's path. -/
inductive BuildError : Type where
  | ContentParseError (path : String)
deriving DecidableEq, Repr

/-- A successfully parsed document: its path and front-matter mapping. -/
structure ParsedDoc where
  path : String
  fm : List (String × String)
deriving DecidableEq, Repr

def splitOnChar (c : Char) (s : List Char) : List (List Char) :=
  s.foldr (fun ch acc =>
    match acc with
    | [] => [[ch]]
    | a :: as => if ch = c then [] :: a :: as else (ch :: a) :: as) [[]]

/-- Modelled from the spec (§6): front matter is `key: value` lines; a
nonempty line without a colon is malformed. -/
def parseLine (l : List Char) : Option (String × String) :=
  if l.contains ':' then
    some (⟨l.takeWhile (· ≠ ':')⟩, ⟨(l.dropWhile (· ≠ ':')).tail⟩)
  else none

def parseFrontMatter (s : String) : Option (List (String × String)) :=
  ((splitOnChar '\n' s.data).filter (fun l => !l.isEmpty)).mapM parseLine

/-- Whether a document's front matter parses. -/
def docOk (d : RawDoc) : Bool :=
  (parseFrontMatter d.frontMatter).isSome

/-- Modelled from the spec (§4.2, §7): the document pass of `build` — a
document whose front matter parses becomes a page; a document with unparsable
front matter is skipped and a `ContentParseError` is collected into the build
report; one bad document never aborts the build. -/
def buildDocs : List RawDoc → List ParsedDoc × List BuildError
  | [] => ([], [])
  | d :: ds =>
    match parseFrontMatter d.frontMatter with
    | some fm => (⟨d.path, fm⟩ :: (buildDocs ds).1, (buildDocs ds).2)
    | none => ((buildDocs ds).1, .ContentParseError d.path :: (buildDocs ds).2)

theorem buildDocs_errors (docs : List RawDoc) :
    (buildDocs docs).2 = (docs.filter (fun d => !docOk d)).map
      (fun d => BuildError.ContentParseError d.path) := by
  induction docs with
  | nil => rfl
  | cons d ds ih =>
    rw [buildDocs]
    cases hp : parseFrontMatter d.frontMatter with
    | some fm =>
      have hok : (!docOk d) = false := by rw [docOk, hp]; rfl
      simp only [List.filter_cons, hok, if_false]
      exact ih
    | none =>
      have hok : (!docOk d) = true := by rw [docOk, hp]; rfl
      simp only [List.filter_cons, hok, if_true, List.map_cons]
      rw [ih]

theorem buildDocs_pages (docs : List RawDoc) :
    (buildDocs docs).1.map ParsedDoc.path = (docs.filter docOk).map RawDoc.path := by
  induction docs with
  | nil => rfl
  | cons d ds ih =>
    rw [buildDocs]
    cases hp : parseFrontMatter d.frontMatter with
    | some fm =>
      have hok : docOk d = true := by rw [docOk, hp]; rfl
      simp only [List.filter_cons, hok, if_true, List.map_cons]
      rw [ih]
    | none =>
      have hok : docOk d = false := by rw [docOk, hp]; rfl
      simp only [List.filter_cons, hok, if_false]
      exact ih

theorem filter_ok_length (docs : List RawDoc) :
    (docs.filter docOk).length + (docs.filter (fun d => !docOk d)).length =
      docs.length := by
  induction docs with
  | nil => rfl
  | cons d ds ih =>
    rw [List.filter_cons, List.filter_cons]
    cases hok : docOk d with
    | true => simp only [hok, Bool.not_true, if_true, if_false]; simp [← ih]; omega
    | false => simp only [hok, Bool.not_false, if_true, if_false]; simp [← ih]; omega

/-- C9: a document whose front matter cannot be parsed is skipped and does
not abort the build: when the input holds exactly one malformed document the
build report is exactly one `ContentParseError` tagged with its path, and the
built pages are exactly the remaining documents, in order. -/
theorem C9_parse_failure_skipped (docs : List RawDoc)
    (h : (docs.filter (fun d => !docOk d)).length = 1) :
    (buildDocs docs).2.length = 1 ∧
    (buildDocs docs).2 = (docs.filter (fun d => !docOk d)).map
      (fun d => BuildError.ContentParseError d.path) ∧
    (buildDocs docs).1.map ParsedDoc.path = (docs.filter docOk).map RawDoc.path ∧
    (buildDocs docs).1.length = docs.length - 1 := by
  refine ⟨?_, buildDocs_errors docs, buildDocs_pages docs, ?_⟩
  · rw [buildDocs_errors docs, List.length_map, h]
  · have h1 := filter_ok_length docs
    have h2 := congrArg List.length (buildDocs_pages docs)
    rw [List.length_map, List.length_map] at h2
    omega

/-- Witness for C9: three documents, the middle one with malformed front
matter; the report is one `ContentParseError` and the other two build. -/
theorem C9_parse_failure_skipped_witness :
    ((([⟨"/a", "title: A"⟩, ⟨"/b", "no front matter here"⟩,
        ⟨"/c", "title: C"⟩] : List RawDoc).filter (fun d => !docOk d)).length = 1) ∧
    (buildDocs [⟨"/a", "title: A"⟩, ⟨"/b", "no front matter here"⟩,
        ⟨"/c", "title: C"⟩]).2 = [.ContentParseError "/b"] ∧
    (buildDocs [⟨"/a", "title: A"⟩, ⟨"/b", "no front matter here"⟩,
        ⟨"/c", "title: C"⟩]).1.map ParsedDoc.path = ["/a", "/c"] := by
  have h := C9_parse_failure_skipped
    [⟨"/a", "title: A"⟩, ⟨"/b", "no front matter here"⟩, ⟨"/c", "title: C"⟩]
    (by decide)
  exact ⟨by decide, by rw [h.2.1]; decide, by rw [h.2.2.1]; decide⟩

mutual
/-- A fragment of emitted HTML: elements with attributes and children, and
text nodes; the template fragments below are embedded into this type. -/
inductive Html : Type where
  | el (tag : String) (attrs : List (String × String)) (children : HtmlList)
  | text (s : String)
deriving DecidableEq, Repr
/-- An ordered sequence of sibling HTML nodes. -/
inductive HtmlList : Type where
  | nil
  | cons (h : Html) (hs : HtmlList)
deriving DecidableEq, Repr
end

def HtmlList.ofList : List Html → HtmlList
  | [] => .nil
  | h :: hs => .cons h (HtmlList.ofList hs)

mutual
/-- All `href` attribute values of anchor elements of a fragment, in document
order. -/
def anchorHrefs : Html → List String
  | .el tag attrs cs =>
    (if tag = "a" then
      attrs.filterMap (fun kv => if kv.1 = "href" then some kv.2 else none)
     else []) ++ anchorHrefsL cs
  | .text _ => []
def anchorHrefsL : HtmlList → List String
  | .nil => []
  | .cons h hs => anchorHrefs h ++ anchorHrefsL hs
end

theorem anchorHrefsL_ofList (l : List Html) :
    anchorHrefsL (.ofList l) = l.flatMap anchorHrefs := by
  induction l with
  | nil => rfl
  | cons h hs ih => rw [HtmlList.ofList, anchorHrefsL, ih, List.flatMap_cons]

/-- The `li > a` item emitted for one navigation entry by the template
(`<li><a href="{{ asset .link }}">{{ .text }}</a></li>`). -/
def navItem (base : Option String) (e : Entry) : Html :=
  .el "li" [] (.ofList [.el "a" [("href", asset base e.link)]
    (.ofList [.text e.text])])

/-- Embedding of the breadcrumb fragment of
`src/sites/default/templates/index.tpl` (lines 47–54): when the breadcrumb is
nonempty, a `ul.breadcrumb` of one item per breadcrumb entry. -/
def breadcrumbFragment (base : Option String) (crumbs : List Entry) : List Html :=
  if crumbs.isEmpty then []
  else [.el "ul" [("class", "breadcrumb")] (.ofList (crumbs.map (navItem base)))]

/-- Embedding of the side-menu fragment of
`src/sites/default/templates/index.tpl` (lines 151–157): a `ul` of one item
per side-menu entry. -/
def sideMenuFragment (base : Option String) (menu : List Entry) : List Html :=
  [.el "ul" [] (.ofList (menu.map (navItem base)))]

theorem anchorHrefs_navItem (base : Option String) (e : Entry) :
    anchorHrefs (navItem base e) = [asset base e.link] := by
  rfl

theorem anchorHrefs_navItems (base : Option String) (es : List Entry) :
    (es.map (navItem base)).flatMap anchorHrefs =
      es.map (fun e => asset base e.link) := by
  induction es with
  | nil => rfl
  | cons e es ih =>
    rw [List.map_cons, List.flatMap_cons, ih, anchorHrefs_navItem, List.map_cons]
    rfl

/-- C10: every navigation hyperlink the template emits from breadcrumb and
side-menu entries goes through the asset resolver: the `href` values of the
emitted anchors are exactly `asset` applied to each entry's link, in order —
never the raw link value. -/
theorem C10_nav_links_resolved (base : Option String) (crumbs menu : List Entry) :
    (breadcrumbFragment base crumbs).flatMap anchorHrefs =
      crumbs.map (fun e => asset base e.link) ∧
    (sideMenuFragment base menu).flatMap anchorHrefs =
      menu.map (fun e => asset base e.link) := by
  constructor
  · rw [breadcrumbFragment]
    by_cases hc : crumbs.isEmpty
    · rw [if_pos hc, List.isEmpty_iff.mp hc]
      rfl
    · rw [if_neg hc, List.flatMap_cons, List.flatMap_nil, List.append_nil,
        anchorHrefs, anchorHrefsL_ofList, anchorHrefs_navItems]
      rfl
  · rw [sideMenuFragment, List.flatMap_cons, List.flatMap_nil, List.append_nil,
      anchorHrefs, anchorHrefsL_ofList, anchorHrefs_navItems]
    rfl
